import Mathlib

/-!
# Verification of `generate_timing_wave` (scaredy-shroom, `timing_utility.py`)

Shallow embedding of the digital timing-wave generator.  A timing sequence is
a list of runs `(bitmask, duration)`; durations and the sample rate are real
numbers in the source (Python floats), modelled here as rationals.  Python's
built-in `round` (round half to even) is modelled by `rnd2even`.  The NumPy
dtype selection (`np.uint8 if bit_num < 9 else np.uint16`) is modelled by a
storage bit width, and the value cast performed by `np.full(..., dtype=dtype)`
(an unsafe, i.e. modular, cast) is modelled by reduction modulo `2 ^ width`.
-/

/-- Round half to even, the rounding performed by Python's built-in `round`:
nearest integer, ties resolved to the even neighbour. -/
def rnd2even (q : ℚ) : ℤ :=
  if q - ⌊q⌋ < 1/2 then ⌊q⌋
  else if 1/2 < q - ⌊q⌋ then ⌊q⌋ + 1
  else if ⌊q⌋ % 2 = 0 then ⌊q⌋ else ⌊q⌋ + 1

/-- Storage element bit width: `dtype = np.uint8 if bit_num < 9 else np.uint16`. -/
def dtypeBits (bit_num : ℕ) : ℕ := if bit_num < 9 then 8 else 16

/-- The modular cast a value undergoes when stored into the selected dtype
(`np.full` performs an unsafe cast, i.e. reduction modulo the element width). -/
def castVal (bit_num : ℕ) (v : ℕ) : ℕ := v % 2 ^ dtypeBits bit_num

/-- Number of samples emitted for one run: `round(t[1] * sample_rate)`.
(`np.full` requires a nonnegative count; for the nonnegative durations and
rates of the data model the rounded count is nonnegative and `Int.toNat`
is the identity on it.) -/
def sampleCount (sample_rate : ℚ) (t : ℕ × ℚ) : ℕ :=
  (rnd2even (t.2 * sample_rate)).toNat

/-- The single-channel (flat) wave:
`np.concatenate([np.full(round(t[1]*sample_rate), t[0], dtype=dtype) for t in ...])`. -/
def flatWave (tsl : List (ℕ × ℚ)) (sample_rate : ℚ) (bit_num : ℕ) : List ℕ :=
  (tsl.map fun t => List.replicate (sampleCount sample_rate t) (castVal bit_num t.1)).flatten

/-- The value emitted in lane `idx` for a run with bitmask `mask`:
`(t[0] >> bit_num*idx) & 0xFF`. -/
def laneVal (bit_num idx mask : ℕ) : ℕ := (mask >>> (bit_num * idx)) &&& 0xFF

/-- One channel row of the multi-channel wave. -/
def laneWave (tsl : List (ℕ × ℚ)) (sample_rate : ℚ) (bit_num idx : ℕ) : List ℕ :=
  (tsl.map fun t =>
    List.replicate (sampleCount sample_rate t) (castVal bit_num (laneVal bit_num idx t.1))).flatten

/-- `generate_timing_wave`: returns a flat wave when `n_channel == 1`, and the
row-stacked per-channel waves (row `idx` built from lane `idx`) otherwise. -/
def generate_timing_wave (tsl : List (ℕ × ℚ)) (sample_rate : ℚ)
    (bit_num : ℕ := 8) (n_channel : ℕ := 1) : List ℕ ⊕ List (List ℕ) :=
  if n_channel = 1 then
    Sum.inl (flatWave tsl sample_rate bit_num)
  else
    Sum.inr ((List.range n_channel).map fun idx => laneWave tsl sample_rate bit_num idx)

/-- The bit slice `[idx*bit_num, (idx+1)*bit_num)` of `mask`.  Modelled from
the spec's words ("each lane `i` extracts bits `[i*bit_num, (i+1)*bit_num)` of
the run's bitmask"), for comparison with the `laneVal` the code computes. -/
def bitSlice (bit_num idx mask : ℕ) : ℕ := (mask >>> (bit_num * idx)) % 2 ^ bit_num

/-- Offset (in samples) at which run `i`'s segment begins: the sum of the
sample counts of the preceding runs. -/
def segStart (tsl : List (ℕ × ℚ)) (sample_rate : ℚ) (i : ℕ) : ℕ :=
  ((tsl.take i).map (sampleCount sample_rate)).sum

/-! ## Helper lemmas -/

lemma rnd2even_nonneg {q : ℚ} (hq : 0 ≤ q) : 0 ≤ rnd2even q := by
  have hf : (0:ℤ) ≤ ⌊q⌋ := Int.floor_nonneg.mpr hq
  unfold rnd2even
  split_ifs <;> omega

lemma sampleCount_cast {sample_rate : ℚ} {t : ℕ × ℚ} (h : 0 ≤ t.2 * sample_rate) :
    (sampleCount sample_rate t : ℤ) = rnd2even (t.2 * sample_rate) :=
  Int.toNat_of_nonneg (rnd2even_nonneg h)

lemma length_flatWave (tsl : List (ℕ × ℚ)) (sample_rate : ℚ) (bit_num : ℕ) :
    (flatWave tsl sample_rate bit_num).length = (tsl.map (sampleCount sample_rate)).sum := by
  simp [flatWave, List.length_flatten, List.map_map, Function.comp_def]

lemma length_laneWave (tsl : List (ℕ × ℚ)) (sample_rate : ℚ) (bit_num idx : ℕ) :
    (laneWave tsl sample_rate bit_num idx).length = (tsl.map (sampleCount sample_rate)).sum := by
  simp [laneWave, List.length_flatten, List.map_map, Function.comp_def]

lemma flatWave_append (A B : List (ℕ × ℚ)) (sample_rate : ℚ) (bit_num : ℕ) :
    flatWave (A ++ B) sample_rate bit_num =
      flatWave A sample_rate bit_num ++ flatWave B sample_rate bit_num := by
  simp [flatWave]

lemma laneWave_append (A B : List (ℕ × ℚ)) (sample_rate : ℚ) (bit_num idx : ℕ) :
    laneWave (A ++ B) sample_rate bit_num idx =
      laneWave A sample_rate bit_num idx ++ laneWave B sample_rate bit_num idx := by
  simp [laneWave]

lemma eight_le_dtypeBits (bit_num : ℕ) : 8 ≤ dtypeBits bit_num := by
  unfold dtypeBits; split_ifs <;> omega

lemma laneVal_le (bit_num idx mask : ℕ) : laneVal bit_num idx mask ≤ 255 :=
  Nat.le_of_lt_succ (Nat.lt_succ_of_le (Nat.and_le_right))

lemma castVal_laneVal (bit_num idx mask : ℕ) :
    castVal bit_num (laneVal bit_num idx mask) = laneVal bit_num idx mask := by
  apply Nat.mod_eq_of_lt
  calc laneVal bit_num idx mask ≤ 255 := laneVal_le bit_num idx mask
    _ < 2 ^ 8 := by norm_num
    _ ≤ 2 ^ dtypeBits bit_num := Nat.pow_le_pow_right (by norm_num) (eight_le_dtypeBits bit_num)

lemma gen_one (tsl : List (ℕ × ℚ)) (sample_rate : ℚ) (bit_num : ℕ) :
    generate_timing_wave tsl sample_rate bit_num 1 =
      Sum.inl (flatWave tsl sample_rate bit_num) := rfl

lemma gen_many (tsl : List (ℕ × ℚ)) (sample_rate : ℚ) (bit_num n_channel : ℕ)
    (h : n_channel ≠ 1) :
    generate_timing_wave tsl sample_rate bit_num n_channel =
      Sum.inr ((List.range n_channel).map fun idx =>
        laneWave tsl sample_rate bit_num idx) := by
  rw [generate_timing_wave, if_neg h]

lemma rnd2even_one : rnd2even 1 = 1 := by norm_num [rnd2even]

lemma sampleCount_one (m : ℕ) : sampleCount 1 (m, (1:ℚ)) = 1 := by
  norm_num [sampleCount, rnd2even]

lemma map_append_eq_zipWith {α β : Type _} (l : List α) (u v : α → List β) :
    l.map (fun i => u i ++ v i) = List.zipWith (fun a b => a ++ b) (l.map u) (l.map v) := by
  induction l with
  | nil => rfl
  | cons a l ih =>
    rw [List.map_cons, List.map_cons, List.map_cons, List.zipWith_cons_cons, ih]

/-- Evaluation of the generator on the truncating single-channel input. -/
lemma gen_300 : generate_timing_wave [(300, 1)] 1 8 1 = Sum.inl [44] := by
  rw [gen_one]
  norm_num [flatWave, sampleCount_one, castVal]
  decide

/-- The segment of a concatenation of constant blocks that corresponds to
block `i` is exactly that block. -/
lemma flatten_segment (f : ℕ × ℚ → ℕ) (sample_rate : ℚ) (tsl : List (ℕ × ℚ)) (i : ℕ)
    (hi : i < tsl.length) :
    (((tsl.map fun t => List.replicate (sampleCount sample_rate t) (f t)).flatten.drop
        (segStart tsl sample_rate i)).take (sampleCount sample_rate (tsl.get ⟨i, hi⟩))) =
      List.replicate (sampleCount sample_rate (tsl.get ⟨i, hi⟩)) (f (tsl.get ⟨i, hi⟩)) := by
  induction tsl generalizing i with
  | nil => exact absurd hi (by simp)
  | cons a tl ih =>
    cases i with
    | zero =>
      have hget : (a :: tl).get ⟨0, hi⟩ = a := rfl
      rw [hget]
      simp only [segStart, List.take_zero, List.map_nil, List.sum_nil, List.map_cons,
        List.flatten_cons, List.drop_zero]
      exact List.take_left' (List.length_replicate _ _)
    | succ j =>
      have hj : j < tl.length := by simpa using hi
      have hseg : segStart (a :: tl) sample_rate (j + 1) =
          (List.replicate (sampleCount sample_rate a) (f a)).length +
            segStart tl sample_rate j := by
        simp [segStart]
      rw [List.map_cons, List.flatten_cons, hseg, List.drop_append]
      exact ih j hj

/-! ## Claim theorems -/

/-- C1: for every non-empty run sequence (nonnegative durations and rate, as
in the data model), the flat output length is the sum over the runs of
`round(duration_i * sample_rate)` (round half to even), and a run whose count
rounds to zero contributes zero samples: it is silently dropped, the result
being the same wave as without that run. -/
theorem flat_length_eq_sum_rounds (tsl : List (ℕ × ℚ)) (sample_rate : ℚ) (bit_num : ℕ)
    ( _hne : tsl ≠ []) (hr : 0 ≤ sample_rate) (hd : ∀ t ∈ tsl, 0 ≤ t.2) :
    (∃ w, generate_timing_wave tsl sample_rate bit_num 1 = Sum.inl w ∧
        (w.length : ℤ) = (tsl.map fun t => rnd2even (t.2 * sample_rate)).sum) ∧
    (∀ pre post t, rnd2even (t.2 * sample_rate) = 0 →
      generate_timing_wave (pre ++ t :: post) sample_rate bit_num 1 =
        generate_timing_wave (pre ++ post) sample_rate bit_num 1) := by
  constructor
  · refine ⟨flatWave tsl sample_rate bit_num, gen_one tsl sample_rate bit_num, ?_⟩
    rw [length_flatWave, Nat.cast_list_sum, List.map_map]
    refine congrArg List.sum (List.map_congr_left fun t ht => ?_)
    simpa [Function.comp] using sampleCount_cast (mul_nonneg (hd t ht) hr)
  · intro pre post t h
    have hz : flatWave [t] sample_rate bit_num = [] := by
      simp [flatWave, sampleCount, h]
    rw [gen_one, gen_one, ← List.singleton_append, ← List.append_assoc,
      flatWave_append, flatWave_append, flatWave_append, hz]
    simp

/-- Witness for C1 at runs `[(2, 3), (1, 2)]`, rate 1, bit width 8. -/
theorem flat_length_eq_sum_rounds_witness :
    (∃ w, generate_timing_wave [((2:ℕ), (3:ℚ)), (1, 2)] 1 8 1 = Sum.inl w ∧
        (w.length : ℤ) = ([((2:ℕ), (3:ℚ)), (1, 2)].map fun t => rnd2even (t.2 * 1)).sum) ∧
    (∀ pre post t, rnd2even (t.2 * 1) = 0 →
      generate_timing_wave (pre ++ t :: post) 1 8 1 =
        generate_timing_wave (pre ++ post) 1 8 1) :=
  flat_length_eq_sum_rounds [((2:ℕ), (3:ℚ)), (1, 2)] 1 8
    (by decide) (by decide) (by decide)

/-- C5: for every non-empty run sequence and `n_channel > 1`, the output has
exactly `n_channel` rows, all of the same length, and that common length is
the length of the flat single-channel output for the same runs and rate. -/
theorem multichannel_shape (tsl : List (ℕ × ℚ)) (sample_rate : ℚ) (bit_num n_channel : ℕ)
    ( _hne : tsl ≠ []) (hnc : 1 < n_channel) :
    ∃ rows w, generate_timing_wave tsl sample_rate bit_num n_channel = Sum.inr rows ∧
      generate_timing_wave tsl sample_rate bit_num 1 = Sum.inl w ∧
      rows.length = n_channel ∧ ∀ row ∈ rows, row.length = w.length := by
  have hne1 : n_channel ≠ 1 := by omega
  refine ⟨(List.range n_channel).map fun idx => laneWave tsl sample_rate bit_num idx,
    flatWave tsl sample_rate bit_num,
    gen_many tsl sample_rate bit_num n_channel hne1, gen_one tsl sample_rate bit_num,
    by simp, ?_⟩
  intro row hrow
  obtain ⟨idx, -, rfl⟩ := List.mem_map.mp hrow
  rw [length_laneWave, length_flatWave]

/-- Witness for C5 at runs `[(2, 3)]`, rate 1, bit width 8, 2 channels. -/
theorem multichannel_shape_witness :
    ∃ rows w, generate_timing_wave [((2:ℕ), (3:ℚ))] 1 8 2 = Sum.inr rows ∧
      generate_timing_wave [((2:ℕ), (3:ℚ))] 1 8 1 = Sum.inl w ∧
      rows.length = 2 ∧ ∀ row ∈ rows, row.length = w.length :=
  multichannel_shape [((2:ℕ), (3:ℚ))] 1 8 2 (by decide) (by decide)

/-- C6: generating the wave for `A ++ B` equals the samplewise concatenation
of the waves for `A` and for `B`: flat waves concatenate, and multi-channel
waves concatenate row by row (no cross-run interaction). -/
theorem wave_concat (A B : List (ℕ × ℚ)) (sample_rate : ℚ) (bit_num : ℕ)
    ( _hA : A ≠ []) ( _hB : B ≠ []) :
    (∀ wA wB, generate_timing_wave A sample_rate bit_num 1 = Sum.inl wA →
      generate_timing_wave B sample_rate bit_num 1 = Sum.inl wB →
      generate_timing_wave (A ++ B) sample_rate bit_num 1 = Sum.inl (wA ++ wB)) ∧
    (∀ n_channel, 1 < n_channel → ∀ rowsA rowsB,
      generate_timing_wave A sample_rate bit_num n_channel = Sum.inr rowsA →
      generate_timing_wave B sample_rate bit_num n_channel = Sum.inr rowsB →
      generate_timing_wave (A ++ B) sample_rate bit_num n_channel =
        Sum.inr (List.zipWith (fun a b => a ++ b) rowsA rowsB)) := by
  constructor
  · intro wA wB hA2 hB2
    rw [gen_one] at hA2 hB2
    rw [gen_one, flatWave_append, Sum.inl.inj hA2, Sum.inl.inj hB2]
  · intro n_channel hnc rowsA rowsB h1 h2
    have hne1 : n_channel ≠ 1 := by omega
    rw [gen_many _ _ _ _ hne1] at h1 h2
    rw [gen_many _ _ _ _ hne1, ← Sum.inr.inj h1, ← Sum.inr.inj h2,
      ← map_append_eq_zipWith]
    exact congrArg Sum.inr
      (List.map_congr_left fun idx _ => laneWave_append A B sample_rate bit_num idx)

/-- Witness for C6 at `A = [(1, 1)]`, `B = [(2, 2)]`, rate 1, bit width 8. -/
theorem wave_concat_witness :
    (∀ wA wB, generate_timing_wave [((1:ℕ), (1:ℚ))] 1 8 1 = Sum.inl wA →
      generate_timing_wave [((2:ℕ), (2:ℚ))] 1 8 1 = Sum.inl wB →
      generate_timing_wave ([((1:ℕ), (1:ℚ))] ++ [((2:ℕ), (2:ℚ))]) 1 8 1 =
        Sum.inl (wA ++ wB)) ∧
    (∀ n_channel, 1 < n_channel → ∀ rowsA rowsB,
      generate_timing_wave [((1:ℕ), (1:ℚ))] 1 8 n_channel = Sum.inr rowsA →
      generate_timing_wave [((2:ℕ), (2:ℚ))] 1 8 n_channel = Sum.inr rowsB →
      generate_timing_wave ([((1:ℕ), (1:ℚ))] ++ [((2:ℕ), (2:ℚ))]) 1 8 n_channel =
        Sum.inr (List.zipWith (fun a b => a ++ b) rowsA rowsB)) :=
  wave_concat [((1:ℕ), (1:ℚ))] [((2:ℕ), (2:ℚ))] 1 8 (by decide) (by decide)

/-- C8: in the single-channel case the stored sample value is the bitmask
reduced modulo the selected storage width, `bitmask mod 2^w`: a mask that
does not fit is silently truncated, not reported as an error.  Concretely,
mask 300 with the 8-bit storage type is stored as 44. -/
theorem flat_truncation (mask : ℕ) (d sample_rate : ℚ) (bit_num : ℕ) :
    generate_timing_wave [(mask, d)] sample_rate bit_num 1 =
      Sum.inl (List.replicate (sampleCount sample_rate (mask, d))
        (mask % 2 ^ dtypeBits bit_num)) ∧
    generate_timing_wave [(300, 1)] 1 8 1 = Sum.inl [44] := by
  constructor
  · simp [generate_timing_wave, flatWave, castVal]
  · exact gen_300

/-- C10: in the multi-channel case every element of every row is at most 255,
whatever the bitmasks and whatever `bit_num` (even when `bit_num > 8` selects
the 16-bit storage type), because each lane value is masked with `0xFF`. -/
theorem multichannel_bounded (tsl : List (ℕ × ℚ)) (sample_rate : ℚ) (bit_num n_channel : ℕ)
    (hnc : 1 < n_channel) (rows : List (List ℕ))
    (hrows : generate_timing_wave tsl sample_rate bit_num n_channel = Sum.inr rows) :
    ∀ row ∈ rows, ∀ x ∈ row, x ≤ 255 := by
  have hne1 : n_channel ≠ 1 := by omega
  rw [gen_many _ _ _ _ hne1] at hrows
  obtain rfl := (Sum.inr.inj hrows).symm
  intro row hrow x hx
  obtain ⟨idx, -, rfl⟩ := List.mem_map.mp hrow
  unfold laneWave at hx
  obtain ⟨l, hl, hxl⟩ := List.mem_flatten.mp hx
  obtain ⟨t, -, rfl⟩ := List.mem_map.mp hl
  rw [List.eq_of_mem_replicate hxl, castVal_laneVal]
  exact laneVal_le _ _ _

/-- Evaluation of the generator on a wide (16-bit storage) two-channel input. -/
lemma gen_wide_example : generate_timing_wave [(0xFF0000, 1)] 1 16 2 = Sum.inr [[0], [255]] := by
  rw [gen_many _ _ _ _ (by omega)]
  norm_num [laneWave, sampleCount_one]
  decide

/-- Witness for C10 at runs `[(0xFF0000, 1)]`, rate 1, bit width 16, 2
channels, whose second row holds the element 255. -/
theorem multichannel_bounded_witness : (255 : ℕ) ≤ 255 :=
  multichannel_bounded [(0xFF0000, 1)] 1 16 2 (by decide) [[0], [255]]
    gen_wide_example [255] (by decide) 255 (by decide)

/-- C4: on runs `[(0b10, 3), (0b01, 2), (0b10, 4)]` with sample rate 1 and the
default bit width 8 and channel count 1, `generate_timing_wave` returns the
flat 9-sample wave `[2,2,2,1,1,2,2,2,2]`. -/
theorem wave_example_flat :
    generate_timing_wave [(2, 3), (1, 2), (2, 4)] 1 8 1 =
      Sum.inl [2, 2, 2, 1, 1, 2, 2, 2, 2] := by
  norm_num [generate_timing_wave, flatWave, sampleCount, castVal, dtypeBits, rnd2even]
  decide

/-- C7: the storage element width is a function of `bit_num` alone:
8 bits when `bit_num ≤ 8` and 16 bits when `bit_num > 8`. -/
theorem dtype_selection (bit_num : ℕ) :
    dtypeBits bit_num = if bit_num ≤ 8 then 8 else 16 := by
  unfold dtypeBits
  rcases Nat.lt_or_ge bit_num 9 with h | h
  · rw [if_pos h, if_pos (by omega)]
  · rw [if_neg (by omega), if_neg (by omega)]

/-- C9: `generate_timing_wave` is deterministic: two invocations with
identical inputs produce identical output.  (Freedom from side effects holds
by construction: the embedding is a pure function, faithful to the source,
which only builds and returns fresh arrays.) -/
theorem wave_deterministic (tsl : List (ℕ × ℚ)) (sample_rate : ℚ) (bit_num n_channel : ℕ) :
    generate_timing_wave tsl sample_rate bit_num n_channel =
      generate_timing_wave tsl sample_rate bit_num n_channel := rfl

/-- C2 counterexample: with mask 300, rate 1, bit width 8 and one channel the
single emitted sample is 44 (the mask cast to the 8-bit storage type), not the
run's bitmask 300, so the flat segment is not "equal to the run's bitmask". -/
theorem flat_value_counterexample :
    generate_timing_wave [(300, 1)] 1 8 1 = Sum.inl [44] ∧
    Sum.inl [44] ≠ (Sum.inl (List.replicate (sampleCount 1 ((300:ℕ), (1:ℚ))) 300) :
      List ℕ ⊕ List (List ℕ)) :=
  ⟨gen_300, by rw [sampleCount_one]; decide⟩

/-- C2 (amended): the output segment for run `i` is constant over its whole
span of `round(duration_i * sample_rate)` samples; in the flat case its value
is the run's bitmask reduced modulo the storage width (equal to the bitmask
whenever it fits), and in each lane of the multi-channel case it is that
lane's extracted byte. -/
theorem run_segment_constant (tsl : List (ℕ × ℚ)) (sample_rate : ℚ)
    (bit_num n_channel i : ℕ) (hi : i < tsl.length) :
    (∀ w, generate_timing_wave tsl sample_rate bit_num 1 = Sum.inl w →
      (w.drop (segStart tsl sample_rate i)).take
          (sampleCount sample_rate (tsl.get ⟨i, hi⟩)) =
        List.replicate (sampleCount sample_rate (tsl.get ⟨i, hi⟩))
          (castVal bit_num (tsl.get ⟨i, hi⟩).1)) ∧
    (1 < n_channel →
      ∀ rows, generate_timing_wave tsl sample_rate bit_num n_channel = Sum.inr rows →
      ∀ c, c < n_channel → ∃ row, rows[c]? = some row ∧
        (row.drop (segStart tsl sample_rate i)).take
            (sampleCount sample_rate (tsl.get ⟨i, hi⟩)) =
          List.replicate (sampleCount sample_rate (tsl.get ⟨i, hi⟩))
            (laneVal bit_num c (tsl.get ⟨i, hi⟩).1)) := by
  constructor
  · intro w hw
    obtain rfl := Sum.inl.inj ((gen_one tsl sample_rate bit_num).symm.trans hw)
    exact flatten_segment (fun t => castVal bit_num t.1) sample_rate tsl i hi
  · intro hnc rows hrows c hc
    have hne1 : n_channel ≠ 1 := by omega
    obtain rfl :=
      Sum.inr.inj ((gen_many tsl sample_rate bit_num n_channel hne1).symm.trans hrows)
    refine ⟨laneWave tsl sample_rate bit_num c, ?_, ?_⟩
    · rw [List.getElem?_map, List.getElem?_range hc]
      rfl
    · have h := flatten_segment (fun t => castVal bit_num (laneVal bit_num c t.1))
        sample_rate tsl i hi
      simpa [laneWave, castVal_laneVal] using h

/-- Witness for C2 (amended) at runs `[(2, 3), (1, 2)]`, run index 1, rate 1,
bit width 8, flat case. -/
theorem run_segment_constant_witness :
    ((flatWave [((2:ℕ), (3:ℚ)), (1, 2)] 1 8).drop
        (segStart [((2:ℕ), (3:ℚ)), (1, 2)] 1 1)).take
        (sampleCount 1 ([((2:ℕ), (3:ℚ)), (1, 2)].get ⟨1, by decide⟩)) =
      List.replicate (sampleCount 1 ([((2:ℕ), (3:ℚ)), (1, 2)].get ⟨1, by decide⟩))
        (castVal 8 ([((2:ℕ), (3:ℚ)), (1, 2)].get ⟨1, by decide⟩).1) :=
  (run_segment_constant [((2:ℕ), (3:ℚ)), (1, 2)] 1 8 2 1 (by decide)).1
    (flatWave [((2:ℕ), (3:ℚ)), (1, 2)] 1 8) (gen_one _ _ _)

/-- C3 counterexample: with `bit_num = 16`, 2 channels and mask 256, lane 0
emits `256 & 0xFF = 0`, while the bit slice `[0, 16)` of the mask is 256: the
emitted value is not the bit-slice `[c*bit_num, (c+1)*bit_num)`; the two
descriptions agree only for byte-wide lanes. -/
theorem lane_slice_counterexample :
    generate_timing_wave [(256, 1)] 1 16 2 = Sum.inr [[0], [0]] ∧
    laneVal 16 0 256 = 0 ∧ bitSlice 16 0 256 = 256 ∧ (0 : ℕ) ≠ 256 := by
  refine ⟨?_, by decide, by decide, by decide⟩
  rw [gen_many _ _ _ _ (by omega)]
  norm_num [laneWave, sampleCount_one]
  decide

/-- C3 (amended): with `n_channel > 1`, lane `c` emits, for each run, the
value `(bitmask >> (bit_num*c)) & 0xFF` — the low byte of the shifted mask;
when `bit_num = 8` this coincides with the bit slice
`[c*bit_num, (c+1)*bit_num)`, so the full value is a concatenation of
per-lane bytes with the least-significant lane first: on runs
`[(0xFF00, 1), (0x00FF, 1)]` at rate 1, bit width 8, 2 channels, row 0 is
`[0x00, 0xFF]` and row 1 is `[0xFF, 0x00]`. -/
theorem lane_extraction (tsl : List (ℕ × ℚ)) (sample_rate : ℚ)
    (bit_num n_channel c : ℕ) (hnc : 1 < n_channel) (hc : c < n_channel) :
    (∃ rows, generate_timing_wave tsl sample_rate bit_num n_channel = Sum.inr rows ∧
      rows[c]? = some ((tsl.map fun t =>
        List.replicate (sampleCount sample_rate t)
          ((t.1 >>> (bit_num * c)) &&& 0xFF)).flatten)) ∧
    (∀ mask, laneVal 8 c mask = bitSlice 8 c mask) ∧
    generate_timing_wave [(0xFF00, 1), (0x00FF, 1)] 1 8 2 =
      Sum.inr [[0x00, 0xFF], [0xFF, 0x00]] := by
  refine ⟨⟨(List.range n_channel).map fun idx => laneWave tsl sample_rate bit_num idx,
    gen_many _ _ _ _ (by omega), ?_⟩, ?_, ?_⟩
  · rw [List.getElem?_map, List.getElem?_range hc]
    refine congrArg some ?_
    refine congrArg List.flatten (List.map_congr_left fun t _ => ?_)
    rw [castVal_laneVal]
    rfl
  · intro mask
    unfold laneVal bitSlice
    have h := Nat.and_pow_two_sub_one_eq_mod (mask >>> (8 * c)) 8
    norm_num at h
    exact h
  · rw [gen_many _ _ _ _ (by omega)]
    norm_num [laneWave, sampleCount_one]
    decide

/-- Witness for C3 (amended) at runs `[(0xFF00, 1), (0x00FF, 1)]`, rate 1,
bit width 8, 2 channels, lane 0. -/
theorem lane_extraction_witness :
    (∃ rows, generate_timing_wave [((0xFF00:ℕ), (1:ℚ)), (0x00FF, 1)] 1 8 2 = Sum.inr rows ∧
      rows[0]? = some (([((0xFF00:ℕ), (1:ℚ)), (0x00FF, 1)].map fun t =>
        List.replicate (sampleCount 1 t) ((t.1 >>> (8 * 0)) &&& 0xFF)).flatten)) ∧
    (∀ mask, laneVal 8 0 mask = bitSlice 8 0 mask) ∧
    generate_timing_wave [(0xFF00, 1), (0x00FF, 1)] 1 8 2 =
      Sum.inr [[0x00, 0xFF], [0xFF, 0x00]] :=
  lane_extraction [((0xFF00:ℕ), (1:ℚ)), (0x00FF, 1)] 1 8 2 0 (by decide) (by decide)
